import Mathlib

/-!
Verification of the quantile aggregation kernel of
`crates/polars-core/src/chunked_array/ops/aggregate/quantile.rs`.

Modelling conventions (shallow embedding):

* `f64` values that flow through the arithmetic (the quantile fraction, the
  fractional index, interpolated results) are modelled as exact rationals
  `ℚ`; the quantile fraction at the public entry point is modelled as `F64`,
  a rational extended with a `nan` point, because the `(0.0..=1.0)`
  range check must reject NaN exactly as Rust's `PartialOrd` does.
* Rust's saturating `f64 as usize` cast and `f64::round`
  (round half away from zero) are modelled exactly for finite inputs by
  `rustF64ToUsize` and `rustRound`.
* The element type of a `ChunkedArray` is an arbitrary `LinearOrder`: the
  implementation only touches elements through the `TotalOrd` comparator
  (a linear order on `f64` bit patterns, so NaN is just another point of
  the order) and through `to_f64`, modelled as an arbitrary map `toF`.
* `slice.select_nth_unstable_by(idx, tot_cmp)` is a Rust standard-library
  call; it is embedded through its documented contract: the element at
  `idx` is the `idx`-th smallest under the comparator and the right
  partition is a permutation of the sorted suffix past `idx`.  Under a
  linear order `min_by` of a list only depends on the multiset of its
  elements, so the right partition is embedded as the sorted suffix.
* `ChunkedArray::sort`, `cont_slice` and `get` live elsewhere in the
  repository; they are modelled from the spec where used (see their doc
  comments).
-/

namespace PolarsQuantile

attribute [local semireducible] Rat.add Rat.sub Rat.mul Rat.inv Rat.ofScientific

/-- The `QuantileMethod` enum (re-exported from `polars_compute::rolling`). -/
inductive QuantileMethod : Type
  | Nearest
  | Lower
  | Higher
  | Midpoint
  | Linear
  | Equiprobable
deriving DecidableEq, Repr

/-- An `f64` that is either NaN or an exact (finite) rational value.  Only
the quantile fraction handed to the public entry points needs the NaN
point: it must fail the `(0.0..=1.0).contains` check. -/
inductive F64 : Type
  | nan : F64
  | fin : ℚ → F64
deriving DecidableEq, Repr

/-- Rust `<=` on `f64` (`PartialOrd`): any comparison involving NaN is
false. -/
def F64.le : F64 → F64 → Bool
  | .fin a, .fin b => decide (a ≤ b)
  | _, _ => false

/-- Rust's `as usize` cast on a finite `f64`: truncation toward zero,
saturating at 0 for negative inputs.  For `x ≥ 0` this is `⌊x⌋`;
for `x < 0` the result is `0`, which `Int.toNat` also produces. -/
def rustF64ToUsize (x : ℚ) : ℕ := (⌊x⌋).toNat

/-- Rust's `f64::round`: round half away from zero.  All call sites in
the kernel only apply it to nonnegative values, where it agrees with
`⌊x + 1/2⌋`. -/
def rustRound (x : ℚ) : ℤ := if 0 ≤ x then ⌊x + 1/2⌋ else ⌈x - 1/2⌉

/-- Model of `quantile_idx` (quantile.rs lines 13-40): maps the quantile fraction,
total length, null count and method to `(base_idx, float_idx, top_idx)`. -/
def quantile_idx (quantile : ℚ) (length null_count : ℕ)
    (method : QuantileMethod) : ℕ × ℚ × ℕ :=
  let nonnull_count : ℚ := ((length - null_count : ℕ) : ℚ)
  let float_idx : ℚ := (nonnull_count - 1) * quantile + (null_count : ℚ)
  match method with
  | .Nearest =>
      let idx := (rustRound float_idx).toNat
      (idx, 0, idx)
  | .Lower | .Midpoint | .Linear =>
      let base_idx := min (rustF64ToUsize float_idx) (length - 1)
      (base_idx, float_idx, (⌈float_idx⌉).toNat)
  | .Higher =>
      let base_idx := min ((⌈float_idx⌉).toNat) (length - 1)
      (base_idx, float_idx, (⌈float_idx⌉).toNat)
  | .Equiprobable =>
      let idx := rustF64ToUsize (max (((⌈nonnull_count * quantile⌉ : ℤ) : ℚ) - 1) 0)
        + null_count
      (idx, 0, idx)

/-- Model of `linear_interpol` (quantile.rs lines 43-50), at the `f64` instantiation. -/
def linear_interpol (lower upper : ℚ) (idx : ℕ) (float_idx : ℚ) : ℚ :=
  if lower = upper then lower
  else (float_idx - (idx : ℚ)) * (upper - lower) + lower

/-- Model of `midpoint_interpol` (quantile.rs lines 51-57), at the `f64` instantiation. -/
def midpoint_interpol (lower upper : ℚ) : ℚ :=
  if lower = upper then lower else (lower + upper) / (1 + 1)

variable {α : Type} [LinearOrder α]

/-- Full ascending sort of the extracted values under the `TotalOrd`
comparator (a linear order). -/
def sortVals (l : List α) : List α := List.insertionSort (· ≤ ·) l

/-- Model of `Iterator::min_by` over a list: `none` on an empty list, otherwise the
minimum (under a linear order ties hold equal values, so any tie-breaking
policy returns the same value). -/
def min_by : List α → Option α
  | [] => none
  | x :: xs => some (xs.foldl min x)

/-- Model of `quantile_slice` (quantile.rs lines 60-101): validation, the empty and
single-element shortcuts, then quickselect at `base` and, when
`base ≠ top`, a minimum scan of the right partition.  The
`select_nth_unstable_by` call is embedded by its contract: the value at
`base` is `(sortVals vals)[base]` and the right partition holds the same
multiset as `(sortVals vals).drop (base + 1)`. -/
def quantile_slice (toF : α → ℚ) (vals : List α) (quantile : F64)
    (method : QuantileMethod) : Except String (Option ℚ) :=
  match quantile with
  | .nan => .error "quantile should be between 0.0 and 1.0"
  | .fin q =>
    if 0 ≤ q ∧ q ≤ 1 then
      if vals.isEmpty then .ok none
      else if vals.length = 1 then .ok (vals.head?.map toF)
      else
        let r := quantile_idx q vals.length 0 method
        let s := sortVals vals
        if r.1 = r.2.2 then .ok ((s[r.1]?).map toF)
        else
          match method with
          | .Midpoint =>
              let upper := min_by (s.drop (r.1 + 1))
              .ok (some (midpoint_interpol (((s[r.1]?).map toF).getD 0)
                ((upper.map toF).getD 0)))
          | .Linear =>
              let upper := min_by (s.drop (r.1 + 1))
              .ok (some (linear_interpol (((s[r.1]?).map toF).getD 0)
                ((upper.map toF).getD 0) r.1 r.2.1))
          | _ => .ok ((s[r.1]?).map toF)
    else .error "quantile should be between 0.0 and 1.0"

/-- The sequence container: an ordered collection of nullable values with
a single-chunk flag (whether a contiguous buffer is exposed) and the
ascending-sorted flag. -/
structure ChunkedArray (α : Type) : Type where
  data : List (Option α)
  singleChunk : Bool
  sortedFlag : Bool

/-- Model of `ChunkedArray::len`. -/
def ChunkedArray.len (ca : ChunkedArray α) : ℕ := ca.data.length

/-- Model of `ChunkedArray::null_count`. -/
def ChunkedArray.null_count (ca : ChunkedArray α) : ℕ :=
  ca.data.countP (fun o => o.isNone)

/-- The non-null values in order. -/
def ChunkedArray.values (ca : ChunkedArray α) : List α := ca.data.filterMap id

/-- Modelled from the spec: `cont_slice` (defined outside this kernel)
exposes "a contiguous in-memory buffer of just the non-null values in
current order" exactly when the array is a single chunk with no nulls
(spec section 3, section 4.5). -/
def ChunkedArray.cont_slice (ca : ChunkedArray α) : Option (List α) :=
  if ca.singleChunk ∧ ca.null_count = 0 then some ca.values else none

/-- Modelled from the spec: `ChunkedArray::sort(false)` (defined outside
this kernel) produces the fully ascending-sorted sequence with "nulls
ordered before all non-null values" (spec sections 3 and 4.4). -/
def ChunkedArray.sort (ca : ChunkedArray α) : List (Option α) :=
  List.replicate ca.null_count none ++ (sortVals ca.values).map some

/-- Modelled from the spec: `get_at(index) -> Option<NativeValue>` on the
sorted copy (spec section 6): the value there, `none` for a null slot or
an out-of-range index. -/
def getSorted (l : List (Option α)) (i : ℕ) : Option α := (l[i]?).join

/-- Model of `generic_quantile` (quantile.rs lines 103-148): validation, the
all-null shortcut, then direct indexing into the nulls-first ascending
sort. The `unwrap` calls on `lower`/`upper` are modelled by `Option.getD`;
the bounds theorems show the defaults are never used. -/
def generic_quantile (toF : α → ℚ) (ca : ChunkedArray α) (quantile : F64)
    (method : QuantileMethod) : Except String (Option ℚ) :=
  match quantile with
  | .nan => .error "`quantile` should be between 0.0 and 1.0"
  | .fin q =>
    if 0 ≤ q ∧ q ≤ 1 then
      let null_count := ca.null_count
      let length := ca.len
      if null_count = length then .ok none
      else
        let r := quantile_idx q length null_count method
        let sorted := ca.sort
        let lower := (getSorted sorted r.1).map toF
        let opt : Option ℚ :=
          match method with
          | .Midpoint =>
              if r.2.2 = r.1 then lower
              else
                let upper := (getSorted sorted (r.1 + 1)).map toF
                some (midpoint_interpol (lower.getD 0) (upper.getD 0))
          | .Linear =>
              if r.2.2 = r.1 then lower
              else
                let upper := (getSorted sorted (r.1 + 1)).map toF
                some (linear_interpol (lower.getD 0) (upper.getD 0) r.1 r.2.1)
          | _ => lower
        .ok opt
    else .error "`quantile` should be between 0.0 and 1.0"

/-- Model of `ChunkQuantile::quantile` (quantile.rs lines 155-163 and the
`Float32Chunked`/`Float64Chunked` impls): quickselect on the contiguous
buffer when one exists and the array is not flagged ascending-sorted,
otherwise the sort-based fallback. -/
def ChunkedArray.quantile (toF : α → ℚ) (ca : ChunkedArray α) (q : F64)
    (method : QuantileMethod) : Except String (Option ℚ) :=
  match ca.cont_slice, ca.sortedFlag with
  | some slice, false => quantile_slice toF slice q method
  | _, _ => generic_quantile toF ca q method

deriving instance DecidableEq for Except

/-! ### The fractional index, written out -/

/-- The fractional index `(m - 1) * q + z` with `m = n - z` computed in
`usize` arithmetic, exactly the `float_idx` local of `quantile_idx`. -/
def floatIdx (q : ℚ) (n z : ℕ) : ℚ := (((n - z : ℕ) : ℚ) - 1) * q + (z : ℚ)

theorem quantile_idx_Nearest (q : ℚ) (n z : ℕ) :
    quantile_idx q n z .Nearest =
      ((rustRound (floatIdx q n z)).toNat, 0, (rustRound (floatIdx q n z)).toNat) := rfl

theorem quantile_idx_Lower (q : ℚ) (n z : ℕ) :
    quantile_idx q n z .Lower =
      (min (rustF64ToUsize (floatIdx q n z)) (n - 1), floatIdx q n z,
        (⌈floatIdx q n z⌉).toNat) := rfl

theorem quantile_idx_Midpoint (q : ℚ) (n z : ℕ) :
    quantile_idx q n z .Midpoint =
      (min (rustF64ToUsize (floatIdx q n z)) (n - 1), floatIdx q n z,
        (⌈floatIdx q n z⌉).toNat) := rfl

theorem quantile_idx_Linear (q : ℚ) (n z : ℕ) :
    quantile_idx q n z .Linear =
      (min (rustF64ToUsize (floatIdx q n z)) (n - 1), floatIdx q n z,
        (⌈floatIdx q n z⌉).toNat) := rfl

theorem quantile_idx_Higher (q : ℚ) (n z : ℕ) :
    quantile_idx q n z .Higher =
      (min ((⌈floatIdx q n z⌉).toNat) (n - 1), floatIdx q n z,
        (⌈floatIdx q n z⌉).toNat) := rfl

theorem quantile_idx_Equiprobable (q : ℚ) (n z : ℕ) :
    quantile_idx q n z .Equiprobable =
      (rustF64ToUsize (max (((⌈(((n - z : ℕ) : ℚ)) * q⌉ : ℤ) : ℚ) - 1) 0) + z, 0,
        rustF64ToUsize (max (((⌈(((n - z : ℕ) : ℚ)) * q⌉ : ℤ) : ℚ) - 1) 0) + z) := rfl

/-! ### Bounds on the fractional index -/

theorem floatIdx_ge {q : ℚ} {n z : ℕ} (h0 : 0 ≤ q) (hzn : z < n) :
    (z : ℚ) ≤ floatIdx q n z := by
  have hm : (1 : ℚ) ≤ ((n - z : ℕ) : ℚ) := by
    have : 1 ≤ n - z := by omega
    exact_mod_cast this
  have : 0 ≤ (((n - z : ℕ) : ℚ) - 1) * q := mul_nonneg (by linarith) h0
  unfold floatIdx; linarith

theorem floatIdx_nonneg {q : ℚ} {n z : ℕ} (h0 : 0 ≤ q) (hzn : z < n) :
    0 ≤ floatIdx q n z :=
  le_trans (by positivity) (floatIdx_ge h0 hzn)

theorem floatIdx_le {q : ℚ} {n z : ℕ} (h0 : 0 ≤ q) (h1 : q ≤ 1) (hzn : z < n) :
    floatIdx q n z ≤ (n : ℚ) - 1 := by
  have hm : (1 : ℚ) ≤ ((n - z : ℕ) : ℚ) := by
    have : 1 ≤ n - z := by omega
    exact_mod_cast this
  have hcast : ((n - z : ℕ) : ℚ) = (n : ℚ) - (z : ℚ) :=
    Nat.cast_sub (le_of_lt hzn)
  have : (((n - z : ℕ) : ℚ) - 1) * q ≤ ((n - z : ℕ) : ℚ) - 1 :=
    mul_le_of_le_one_right (by linarith) h1
  unfold floatIdx; rw [hcast] at this ⊢; linarith

theorem floor_floatIdx_ge {q : ℚ} {n z : ℕ} (h0 : 0 ≤ q) (hzn : z < n) :
    (z : ℤ) ≤ ⌊floatIdx q n z⌋ :=
  Int.le_floor.mpr (by exact_mod_cast floatIdx_ge h0 hzn)

theorem floor_floatIdx_le {q : ℚ} {n z : ℕ} (h0 : 0 ≤ q) (h1 : q ≤ 1) (hzn : z < n) :
    ⌊floatIdx q n z⌋ ≤ (n : ℤ) - 1 := by
  have h := floatIdx_le h0 h1 hzn
  have : ⌊floatIdx q n z⌋ ≤ ⌊(((n : ℤ) - 1 : ℤ) : ℚ)⌋ := by
    apply Int.floor_le_floor
    push_cast
    linarith
  simpa using this

theorem ceil_floatIdx_ge {q : ℚ} {n z : ℕ} (h0 : 0 ≤ q) (hzn : z < n) :
    (z : ℤ) ≤ ⌈floatIdx q n z⌉ :=
  le_trans (floor_floatIdx_ge h0 hzn) (Int.floor_le_ceil _)

theorem ceil_floatIdx_le {q : ℚ} {n z : ℕ} (h0 : 0 ≤ q) (h1 : q ≤ 1) (hzn : z < n) :
    ⌈floatIdx q n z⌉ ≤ (n : ℤ) - 1 := by
  apply Int.ceil_le.mpr
  push_cast
  linarith [floatIdx_le h0 h1 hzn]

theorem rustRound_floatIdx_eq {q : ℚ} {n z : ℕ} (h0 : 0 ≤ q) (hzn : z < n) :
    rustRound (floatIdx q n z) = ⌊floatIdx q n z + 1/2⌋ := by
  unfold rustRound
  rw [if_pos (floatIdx_nonneg h0 hzn)]

theorem round_floatIdx_ge {q : ℚ} {n z : ℕ} (h0 : 0 ≤ q) (hzn : z < n) :
    (z : ℤ) ≤ rustRound (floatIdx q n z) := by
  rw [rustRound_floatIdx_eq h0 hzn]
  refine le_trans (floor_floatIdx_ge h0 hzn) (Int.floor_le_floor ?_)
  linarith

theorem round_floatIdx_le {q : ℚ} {n z : ℕ} (h0 : 0 ≤ q) (h1 : q ≤ 1) (hzn : z < n) :
    rustRound (floatIdx q n z) ≤ (n : ℤ) - 1 := by
  rw [rustRound_floatIdx_eq h0 hzn]
  have h : floatIdx q n z + 1/2 < ((n : ℤ) : ℚ) := by
    push_cast
    linarith [floatIdx_le h0 h1 hzn]
  have := Int.floor_lt.mpr h
  omega

/-- The Equiprobable index, as the integers it rounds through. -/
theorem equi_cast (c : ℤ) :
    rustF64ToUsize (max (((c : ℤ) : ℚ) - 1) 0) = (max (c - 1) 0).toNat := by
  unfold rustF64ToUsize
  have h : (max (((c : ℤ) : ℚ) - 1) 0) = ((max (c - 1) 0 : ℤ) : ℚ) := by
    push_cast
    rfl
  rw [h, Int.floor_intCast]

theorem ceil_mul_le {q : ℚ} {m : ℕ} (h1 : q ≤ 1) :
    ⌈(m : ℚ) * q⌉ ≤ (m : ℤ) := by
  apply Int.ceil_le.mpr
  push_cast
  exact mul_le_of_le_one_right (Nat.cast_nonneg m) h1

/-! ### Range of the selected indices -/

theorem idx_ge {q : ℚ} {n z : ℕ} (method : QuantileMethod)
    (h0 : 0 ≤ q) (h1 : q ≤ 1) (hzn : z < n) :
    z ≤ (quantile_idx q n z method).1 := by
  have hfg := floor_floatIdx_ge h0 hzn
  have hfl := floor_floatIdx_le h0 h1 hzn
  have hcg := ceil_floatIdx_ge h0 hzn
  have hcl := ceil_floatIdx_le h0 h1 hzn
  have hrg := round_floatIdx_ge h0 hzn
  cases method with
  | Nearest => simp only [quantile_idx_Nearest]; omega
  | Lower => simp only [quantile_idx_Lower, rustF64ToUsize]; omega
  | Midpoint => simp only [quantile_idx_Midpoint, rustF64ToUsize]; omega
  | Linear => simp only [quantile_idx_Linear, rustF64ToUsize]; omega
  | Higher => simp only [quantile_idx_Higher]; omega
  | Equiprobable => simp only [quantile_idx_Equiprobable, equi_cast]; omega

theorem idx_lt {q : ℚ} {n z : ℕ} (method : QuantileMethod)
    (h0 : 0 ≤ q) (h1 : q ≤ 1) (hzn : z < n) :
    (quantile_idx q n z method).1 < n := by
  have hfg := floor_floatIdx_ge h0 hzn
  have hfl := floor_floatIdx_le h0 h1 hzn
  have hcg := ceil_floatIdx_ge h0 hzn
  have hcl := ceil_floatIdx_le h0 h1 hzn
  have hrg := round_floatIdx_ge h0 hzn
  have hrl := round_floatIdx_le h0 h1 hzn
  cases method with
  | Nearest => simp only [quantile_idx_Nearest]; omega
  | Lower => simp only [quantile_idx_Lower, rustF64ToUsize]; omega
  | Midpoint => simp only [quantile_idx_Midpoint, rustF64ToUsize]; omega
  | Linear => simp only [quantile_idx_Linear, rustF64ToUsize]; omega
  | Higher => simp only [quantile_idx_Higher]; omega
  | Equiprobable =>
      simp only [quantile_idx_Equiprobable, equi_cast]
      have := ceil_mul_le (m := n - z) h1
      omega

theorem top_ge {q : ℚ} {n z : ℕ} (method : QuantileMethod)
    (h0 : 0 ≤ q) (h1 : q ≤ 1) (hzn : z < n) :
    z ≤ (quantile_idx q n z method).2.2 := by
  have hfg := floor_floatIdx_ge h0 hzn
  have hcg := ceil_floatIdx_ge h0 hzn
  have hrg := round_floatIdx_ge h0 hzn
  cases method with
  | Nearest => simp only [quantile_idx_Nearest]; omega
  | Lower => simp only [quantile_idx_Lower]; omega
  | Midpoint => simp only [quantile_idx_Midpoint]; omega
  | Linear => simp only [quantile_idx_Linear]; omega
  | Higher => simp only [quantile_idx_Higher]; omega
  | Equiprobable => simp only [quantile_idx_Equiprobable, equi_cast]; omega

theorem top_lt {q : ℚ} {n z : ℕ} (method : QuantileMethod)
    (h0 : 0 ≤ q) (h1 : q ≤ 1) (hzn : z < n) :
    (quantile_idx q n z method).2.2 < n := by
  have hcg := ceil_floatIdx_ge h0 hzn
  have hcl := ceil_floatIdx_le h0 h1 hzn
  have hrg := round_floatIdx_ge h0 hzn
  have hrl := round_floatIdx_le h0 h1 hzn
  cases method with
  | Nearest => simp only [quantile_idx_Nearest]; omega
  | Lower => simp only [quantile_idx_Lower]; omega
  | Midpoint => simp only [quantile_idx_Midpoint]; omega
  | Linear => simp only [quantile_idx_Linear]; omega
  | Higher => simp only [quantile_idx_Higher]; omega
  | Equiprobable =>
      simp only [quantile_idx_Equiprobable, equi_cast]
      have := ceil_mul_le (m := n - z) h1
      omega

/-- Whenever `base ≠ top`, `top` is exactly `base + 1`. -/
theorem top_of_ne {q : ℚ} {n z : ℕ} (method : QuantileMethod)
    (h0 : 0 ≤ q) (h1 : q ≤ 1) (hzn : z < n)
    (hne : (quantile_idx q n z method).1 ≠ (quantile_idx q n z method).2.2) :
    (quantile_idx q n z method).2.2 = (quantile_idx q n z method).1 + 1 := by
  have hfg := floor_floatIdx_ge h0 hzn
  have hfl := floor_floatIdx_le h0 h1 hzn
  have hcg := ceil_floatIdx_ge h0 hzn
  have hcl := ceil_floatIdx_le h0 h1 hzn
  have hstep := Int.ceil_le_floor_add_one (floatIdx q n z)
  have hfc := Int.floor_le_ceil (floatIdx q n z)
  cases method with
  | Nearest => simp only [quantile_idx_Nearest] at hne ⊢; omega
  | Lower => simp only [quantile_idx_Lower, rustF64ToUsize] at hne ⊢; omega
  | Midpoint => simp only [quantile_idx_Midpoint, rustF64ToUsize] at hne ⊢; omega
  | Linear => simp only [quantile_idx_Linear, rustF64ToUsize] at hne ⊢; omega
  | Higher => simp only [quantile_idx_Higher] at hne ⊢; omega
  | Equiprobable => simp only [quantile_idx_Equiprobable] at hne ⊢; omega

/-- For the floor-based methods the clamp never fires: `base` is exactly
`⌊float_idx⌋`. -/
theorem idx_eq_floor {q : ℚ} {n z : ℕ} {method : QuantileMethod}
    (hm : method = .Lower ∨ method = .Midpoint ∨ method = .Linear)
    (h0 : 0 ≤ q) (h1 : q ≤ 1) (hzn : z < n) :
    (quantile_idx q n z method).1 = (⌊floatIdx q n z⌋).toNat := by
  have hfg := floor_floatIdx_ge h0 hzn
  have hfl := floor_floatIdx_le h0 h1 hzn
  rcases hm with h | h | h <;> subst h <;>
    simp only [quantile_idx_Lower, quantile_idx_Midpoint, quantile_idx_Linear,
      rustF64ToUsize] <;> omega

/-! ### Facts about the sorted view -/

theorem length_sortVals (l : List α) : (sortVals l).length = l.length :=
  List.length_insertionSort _ l

theorem sorted_sortVals (l : List α) : (sortVals l).Sorted (· ≤ ·) :=
  List.sorted_insertionSort _ l

theorem foldl_min_eq : ∀ (t : List α) (x : α), (∀ y ∈ t, x ≤ y) → t.foldl min x = x := by
  intro t
  induction t with
  | nil => intro x _; rfl
  | cons y t ih =>
      intro x h
      have hxy : min x y = x := min_eq_left (h y (List.mem_cons_self y t))
      simpa [hxy] using ih x (fun y' hy' => h y' (List.mem_cons_of_mem y hy'))

/-- The minimum of the suffix of a sorted list past position `i` is the
element at position `i + 1`. -/
theorem min_by_drop {s : List α} (hs : s.Sorted (· ≤ ·)) {i : ℕ} (hi : i < s.length) :
    min_by (s.drop i) = s[i]? := by
  rw [List.drop_eq_getElem_cons hi]
  have hmono := List.pairwise_iff_getElem.mp hs
  have hall : ∀ y ∈ s.drop (i + 1), s[i] ≤ y := by
    intro y hy
    obtain ⟨j, hj, rfl⟩ := List.mem_iff_getElem.mp hy
    have hjlen : i + 1 + j < s.length := by
      have := List.length_drop (i + 1) s
      omega
    rw [List.getElem_drop]
    exact hmono i (i + 1 + j) hi hjlen (by omega)
  have hred : min_by (s[i] :: s.drop (i + 1)) = some ((s.drop (i + 1)).foldl min s[i]) := rfl
  rw [hred, foldl_min_eq _ _ hall, List.getElem?_eq_getElem hi]

/-! ### Facts about the container -/

theorem null_count_map_some (l : List α) (c f : Bool) :
    (ChunkedArray.mk (l.map some) c f).null_count = 0 := by
  simp [ChunkedArray.null_count]

theorem values_map_some (l : List α) (c f : Bool) :
    (ChunkedArray.mk (l.map some) c f).values = l := by
  simp [ChunkedArray.values, List.filterMap_map]

theorem len_map_some (l : List α) (c f : Bool) :
    (ChunkedArray.mk (l.map some) c f).len = l.length := by
  simp [ChunkedArray.len]

theorem values_length_add_null_count (ca : ChunkedArray α) :
    ca.values.length + ca.null_count = ca.len := by
  obtain ⟨l, c, f⟩ := ca
  simp only [ChunkedArray.values, ChunkedArray.null_count, ChunkedArray.len]
  induction l with
  | nil => rfl
  | cons o t ih =>
      cases o <;> simp [List.countP_cons, List.filterMap_cons] <;> omega

/-- A null-free array: the values are all of the data. -/
theorem values_of_null_count_eq_zero {ca : ChunkedArray α}
    (h : ca.null_count = 0) : ca.data = ca.values.map some := by
  obtain ⟨l, c, f⟩ := ca
  simp only [ChunkedArray.null_count, List.countP_eq_zero] at h
  simp only [ChunkedArray.values]
  induction l with
  | nil => rfl
  | cons o t ih =>
      cases o with
      | none => exact absurd (h none (List.mem_cons_self _ _)) (by simp)
      | some a =>
          simp only [List.filterMap_cons, id] at ih ⊢
          rw [List.map_cons]
          exact congrArg _ (ih fun x hx => h x (List.mem_cons_of_mem _ hx))

theorem sort_map_some (l : List α) (c f : Bool) :
    (ChunkedArray.mk (l.map some) c f).sort = (sortVals l).map some := by
  rw [ChunkedArray.sort, null_count_map_some, values_map_some]
  rfl

theorem getSorted_map_some (s : List α) (i : ℕ) :
    getSorted (s.map some) i = s[i]? := by
  rw [getSorted, List.getElem?_map]
  cases s[i]? <;> rfl

/-- Reading the sorted nulls-first view past the null block lands in the
sorted values. -/
theorem getSorted_sort_of_le {ca : ChunkedArray α} {i : ℕ}
    (hzi : ca.null_count ≤ i) :
    getSorted ca.sort i = (sortVals ca.values)[i - ca.null_count]? := by
  rw [ChunkedArray.sort, getSorted, List.getElem?_append_right (by simpa), ← getSorted]
  simp only [List.length_replicate]
  exact getSorted_map_some _ _

/-! ### Control-flow characterizations of the two paths -/

theorem quantile_slice_nan (toF : α → ℚ) (vals : List α) (method : QuantileMethod) :
    quantile_slice toF vals .nan method =
      .error "quantile should be between 0.0 and 1.0" := rfl

theorem quantile_slice_invalid (toF : α → ℚ) (vals : List α) {q : ℚ}
    (method : QuantileMethod) (h : ¬(0 ≤ q ∧ q ≤ 1)) :
    quantile_slice toF vals (.fin q) method =
      .error "quantile should be between 0.0 and 1.0" := by
  unfold quantile_slice
  dsimp only
  rw [if_neg h]

theorem quantile_slice_empty (toF : α → ℚ) {q : ℚ} (method : QuantileMethod)
    (h0 : 0 ≤ q) (h1 : q ≤ 1) :
    quantile_slice toF [] (.fin q) method = .ok none := by
  unfold quantile_slice
  dsimp only
  rw [if_pos ⟨h0, h1⟩]
  rfl

theorem quantile_slice_one (toF : α → ℚ) (v : α) {q : ℚ} (method : QuantileMethod)
    (h0 : 0 ≤ q) (h1 : q ≤ 1) :
    quantile_slice toF [v] (.fin q) method = .ok (some (toF v)) := by
  unfold quantile_slice
  dsimp only
  rw [if_pos ⟨h0, h1⟩]
  rfl

theorem quantile_slice_core (toF : α → ℚ) (vals : List α) {q : ℚ}
    (method : QuantileMethod) (h0 : 0 ≤ q) (h1 : q ≤ 1) (h2 : 2 ≤ vals.length) :
    quantile_slice toF vals (.fin q) method =
      (if (quantile_idx q vals.length 0 method).1 = (quantile_idx q vals.length 0 method).2.2
      then .ok (((sortVals vals)[(quantile_idx q vals.length 0 method).1]?).map toF)
      else match method with
        | .Midpoint => .ok (some (midpoint_interpol
            ((((sortVals vals)[(quantile_idx q vals.length 0 method).1]?).map toF).getD 0)
            (((min_by ((sortVals vals).drop
              ((quantile_idx q vals.length 0 method).1 + 1))).map toF).getD 0)))
        | .Linear => .ok (some (linear_interpol
            ((((sortVals vals)[(quantile_idx q vals.length 0 method).1]?).map toF).getD 0)
            (((min_by ((sortVals vals).drop
              ((quantile_idx q vals.length 0 method).1 + 1))).map toF).getD 0)
            (quantile_idx q vals.length 0 method).1
            (quantile_idx q vals.length 0 method).2.1))
        | _ => .ok (((sortVals vals)[(quantile_idx q vals.length 0 method).1]?).map toF)) := by
  unfold quantile_slice
  dsimp only
  rw [if_pos ⟨h0, h1⟩]
  have hne : vals.isEmpty = false := by
    cases vals with
    | nil => simp at h2
    | cons a t => rfl
  have hlen : ¬vals.length = 1 := by omega
  rw [if_neg (by simp [hne]), if_neg hlen]

theorem generic_quantile_nan (toF : α → ℚ) (ca : ChunkedArray α)
    (method : QuantileMethod) :
    generic_quantile toF ca .nan method =
      .error "`quantile` should be between 0.0 and 1.0" := rfl

theorem generic_quantile_invalid (toF : α → ℚ) (ca : ChunkedArray α) {q : ℚ}
    (method : QuantileMethod) (h : ¬(0 ≤ q ∧ q ≤ 1)) :
    generic_quantile toF ca (.fin q) method =
      .error "`quantile` should be between 0.0 and 1.0" := by
  unfold generic_quantile
  dsimp only
  rw [if_neg h]

theorem generic_quantile_all_null (toF : α → ℚ) (ca : ChunkedArray α) {q : ℚ}
    (method : QuantileMethod) (h0 : 0 ≤ q) (h1 : q ≤ 1)
    (hz : ca.null_count = ca.len) :
    generic_quantile toF ca (.fin q) method = .ok none := by
  unfold generic_quantile
  dsimp only
  rw [if_pos ⟨h0, h1⟩, if_pos hz]

theorem generic_quantile_core (toF : α → ℚ) (ca : ChunkedArray α) {q : ℚ}
    (method : QuantileMethod) (h0 : 0 ≤ q) (h1 : q ≤ 1)
    (hz : ¬ca.null_count = ca.len) :
    generic_quantile toF ca (.fin q) method =
      .ok (match method with
        | .Midpoint =>
            if (quantile_idx q ca.len ca.null_count method).2.2
                = (quantile_idx q ca.len ca.null_count method).1
            then (getSorted ca.sort (quantile_idx q ca.len ca.null_count method).1).map toF
            else some (midpoint_interpol
              (((getSorted ca.sort (quantile_idx q ca.len ca.null_count method).1).map toF).getD 0)
              (((getSorted ca.sort
                ((quantile_idx q ca.len ca.null_count method).1 + 1)).map toF).getD 0))
        | .Linear =>
            if (quantile_idx q ca.len ca.null_count method).2.2
                = (quantile_idx q ca.len ca.null_count method).1
            then (getSorted ca.sort (quantile_idx q ca.len ca.null_count method).1).map toF
            else some (linear_interpol
              (((getSorted ca.sort (quantile_idx q ca.len ca.null_count method).1).map toF).getD 0)
              (((getSorted ca.sort
                ((quantile_idx q ca.len ca.null_count method).1 + 1)).map toF).getD 0)
              (quantile_idx q ca.len ca.null_count method).1
              (quantile_idx q ca.len ca.null_count method).2.1)
        | _ => (getSorted ca.sort (quantile_idx q ca.len ca.null_count method).1).map toF) := by
  unfold generic_quantile
  dsimp only
  rw [if_pos ⟨h0, h1⟩, if_neg hz]

theorem getSorted_sort_map_some (l : List α) (c f : Bool) (i : ℕ) :
    getSorted ((ChunkedArray.mk (l.map some) c f).sort) i = (sortVals l)[i]? := by
  rw [sort_map_some]
  exact getSorted_map_some _ _

theorem sortVals_singleton (v : α) : sortVals [v] = [v] := rfl

/-- Helper: the two paths agree on a null-free array for a valid quantile. -/
theorem fast_slow_aux (toF : α → ℚ) (vals : List α) {q : ℚ}
    (method : QuantileMethod) (c f : Bool) (h0 : 0 ≤ q) (h1 : q ≤ 1) :
    quantile_slice toF vals (.fin q) method =
      generic_quantile toF (ChunkedArray.mk (vals.map some) c f) (.fin q) method := by
  have hz : (ChunkedArray.mk (vals.map some) c f).null_count = 0 :=
    null_count_map_some vals c f
  have hlen : (ChunkedArray.mk (vals.map some) c f).len = vals.length :=
    len_map_some vals c f
  by_cases he : vals = []
  · subst he
    rw [quantile_slice_empty toF method h0 h1,
      generic_quantile_all_null toF _ method h0 h1 (by rw [hz, hlen]; rfl)]
  by_cases hone : vals.length = 1
  · obtain ⟨v, rfl⟩ := List.length_eq_one.mp hone
    rw [quantile_slice_one toF v method h0 h1,
      generic_quantile_core toF _ method h0 h1 (by rw [hz, hlen]; omega)]
    rw [hz, hlen]
    have hn1 : (0 : ℕ) < 1 := Nat.zero_lt_one
    have hi := idx_lt (q := q) (n := 1) (z := 0) method h0 h1 hn1
    have ht := top_lt (q := q) (n := 1) (z := 0) method h0 h1 hn1
    have hi0 : (quantile_idx q 1 0 method).1 = 0 := by omega
    have ht0 : (quantile_idx q 1 0 method).2.2 = 0 := by omega
    have hget : ∀ i, getSorted ((ChunkedArray.mk ([v].map some) c f).sort) i
        = [v][i]? := by
      intro i
      rw [getSorted_sort_map_some, sortVals_singleton]
    cases method <;>
      simp [hi0, ht0, hget, List.length_eq_one, quantile_slice] <;> rfl
  · have h2 : 2 ≤ vals.length := by
      have hne0 : vals.length ≠ 0 := fun h => he (List.length_eq_zero.mp h)
      omega
    have hzn : (0 : ℕ) < vals.length := by omega
    rw [quantile_slice_core toF vals method h0 h1 h2,
      generic_quantile_core toF _ method h0 h1 (by rw [hz, hlen]; omega)]
    rw [hz, hlen]
    have hget : ∀ i, getSorted ((ChunkedArray.mk (vals.map some) c f).sort) i
        = (sortVals vals)[i]? := fun i => getSorted_sort_map_some vals c f i
    have hslen : (sortVals vals).length = vals.length := length_sortVals vals
    by_cases hbt : (quantile_idx q vals.length 0 method).1
        = (quantile_idx q vals.length 0 method).2.2
    · rw [if_pos hbt]
      cases method <;> simp [hget, hbt.symm]
    · rw [if_neg hbt]
      have htop := top_of_ne method h0 h1 hzn hbt
      have htlt := top_lt (q := q) (n := vals.length) (z := 0) method h0 h1 hzn
      have hi1 : (quantile_idx q vals.length 0 method).1 + 1 < (sortVals vals).length := by
        omega
      have hmin : min_by ((sortVals vals).drop ((quantile_idx q vals.length 0 method).1 + 1))
          = (sortVals vals)[(quantile_idx q vals.length 0 method).1 + 1]? :=
        min_by_drop (sorted_sortVals vals) hi1
      have hbt2 : (quantile_idx q vals.length 0 method).2.2
          ≠ (quantile_idx q vals.length 0 method).1 := Ne.symm hbt
      cases method <;>
        simp [hget, hmin, hbt2] <;> try rfl

/-! ### Result-shape lemmas -/

/-- Reading the sorted view inside `[null_count, len)` always hits a
non-null slot. -/
theorem getSorted_sort_isSome {ca : ChunkedArray α} {i : ℕ}
    (hzi : ca.null_count ≤ i) (hin : i < ca.len) :
    (getSorted ca.sort i).isSome := by
  rw [getSorted_sort_of_le hzi]
  have hlt : i - ca.null_count < (sortVals ca.values).length := by
    rw [length_sortVals]
    have := values_length_add_null_count ca
    omega
  simp [List.getElem?_eq_getElem hlt]

theorem quantile_slice_ok_some (toF : α → ℚ) {vals : List α} {q : ℚ}
    (method : QuantileMethod) (h0 : 0 ≤ q) (h1 : q ≤ 1) (hne : vals ≠ []) :
    ∃ v, quantile_slice toF vals (.fin q) method = .ok (some v) := by
  by_cases hone : vals.length = 1
  · obtain ⟨v, rfl⟩ := List.length_eq_one.mp hone
    exact ⟨toF v, quantile_slice_one toF v method h0 h1⟩
  · have h2 : 2 ≤ vals.length := by
      have hne0 : vals.length ≠ 0 := fun h => hne (List.length_eq_zero.mp h)
      omega
    have hzn : (0 : ℕ) < vals.length := by omega
    have hi := idx_lt (q := q) (n := vals.length) (z := 0) method h0 h1 hzn
    have hilt : (quantile_idx q vals.length 0 method).1 < (sortVals vals).length := by
      rw [length_sortVals]; omega
    rw [quantile_slice_core toF vals method h0 h1 h2]
    obtain ⟨w, hw⟩ : ∃ w, (sortVals vals)[(quantile_idx q vals.length 0 method).1]? = some w :=
      ⟨_, List.getElem?_eq_getElem hilt⟩
    by_cases hbt : (quantile_idx q vals.length 0 method).1
        = (quantile_idx q vals.length 0 method).2.2
    · rw [if_pos hbt, hw]
      exact ⟨toF w, rfl⟩
    · rw [if_neg hbt]
      cases method <;> simp only [hw, Option.map_some] <;> exact ⟨_, rfl⟩

theorem generic_quantile_ok_some (toF : α → ℚ) {ca : ChunkedArray α} {q : ℚ}
    (method : QuantileMethod) (h0 : 0 ≤ q) (h1 : q ≤ 1)
    (hzn : ca.null_count < ca.len) :
    ∃ v, generic_quantile toF ca (.fin q) method = .ok (some v) := by
  rw [generic_quantile_core toF ca method h0 h1 (by omega)]
  have hig := idx_ge (q := q) (n := ca.len) (z := ca.null_count) method h0 h1 hzn
  have hil := idx_lt (q := q) (n := ca.len) (z := ca.null_count) method h0 h1 hzn
  have hsome := getSorted_sort_isSome hig hil
  obtain ⟨w, hw⟩ := Option.isSome_iff_exists.mp hsome
  cases method <;> simp only [hw, Option.map_some] <;>
    first
    | exact ⟨toF w, rfl⟩
    | (split <;> exact ⟨_, rfl⟩)

theorem quantile_slice_is_ok (toF : α → ℚ) (vals : List α) {q : ℚ}
    (method : QuantileMethod) (h0 : 0 ≤ q) (h1 : q ≤ 1) :
    ∃ o, quantile_slice toF vals (.fin q) method = .ok o := by
  by_cases he : vals = []
  · subst he
    exact ⟨none, quantile_slice_empty toF method h0 h1⟩
  · obtain ⟨v, hv⟩ := quantile_slice_ok_some toF method h0 h1 he
    exact ⟨some v, hv⟩

theorem generic_quantile_is_ok (toF : α → ℚ) (ca : ChunkedArray α) {q : ℚ}
    (method : QuantileMethod) (h0 : 0 ≤ q) (h1 : q ≤ 1) :
    ∃ o, generic_quantile toF ca (.fin q) method = .ok o := by
  have hle : ca.null_count ≤ ca.len := List.countP_le_length _
  by_cases hz : ca.null_count = ca.len
  · exact ⟨none, generic_quantile_all_null toF ca method h0 h1 hz⟩
  · have hlt : ca.null_count < ca.len := by omega
    obtain ⟨v, hv⟩ := generic_quantile_ok_some toF method h0 h1 hlt
    exact ⟨some v, hv⟩

theorem cont_slice_eq {ca : ChunkedArray α} {slice : List α}
    (h : ca.cont_slice = some slice) :
    slice = ca.values ∧ ca.null_count = 0 := by
  unfold ChunkedArray.cont_slice at h
  split at h
  · rename_i hc
    cases h
    exact ⟨rfl, hc.2⟩
  · cases h

/-! ### Claim theorems -/

/-- C2: over every sequence and method, `quantile(q, method)` returns the
InvalidQuantile (`ComputeError`) error exactly when `q` is not a finite
value inside `[0, 1]`; in particular NaN, `-0.1` and `1.1` all fail.  In
the model both paths perform this validation as their first step, before
any selection or sorting (see `quantile_slice` and `generic_quantile`,
whose bodies check the range before anything else). -/
theorem quantile_error_iff_invalid (toF : α → ℚ) (ca : ChunkedArray α)
    (q : F64) (method : QuantileMethod) :
    (∃ e, ChunkedArray.quantile toF ca q method = .error e) ↔
      ¬ (∃ x : ℚ, q = F64.fin x ∧ 0 ≤ x ∧ x ≤ 1) := by
  cases q with
  | nan =>
      constructor
      · intro _
        rintro ⟨x, hx, -⟩
        cases hx
      · intro _
        unfold ChunkedArray.quantile
        split
        · exact ⟨_, quantile_slice_nan toF _ method⟩
        · exact ⟨_, generic_quantile_nan toF ca method⟩
  | fin x =>
      by_cases hx : 0 ≤ x ∧ x ≤ 1
      · constructor
        · intro ⟨e, he⟩
          exfalso
          revert he
          unfold ChunkedArray.quantile
          split
          · obtain ⟨o, ho⟩ := quantile_slice_is_ok toF _ method hx.1 hx.2
            rw [ho]
            intro h
            cases h
          · obtain ⟨o, ho⟩ := generic_quantile_is_ok toF ca method hx.1 hx.2
            rw [ho]
            intro h
            cases h
        · intro h
          exact absurd ⟨x, rfl, hx.1, hx.2⟩ h
      · constructor
        · intro _
          rintro ⟨y, hy, hy0, hy1⟩
          cases hy
          exact hx ⟨hy0, hy1⟩
        · intro _
          unfold ChunkedArray.quantile
          split
          · exact ⟨_, quantile_slice_invalid toF _ method hx⟩
          · exact ⟨_, generic_quantile_invalid toF ca method hx⟩

/-- C7: for a valid `q`, `quantile` returns `Ok(None)` exactly when the
sequence is empty or entirely null (`null_count = len` covers both), and
returns `Ok(Some value)` whenever at least one non-null value is present;
neither case is an error, on either execution path. -/
theorem quantile_none_iff_all_null (toF : α → ℚ) (ca : ChunkedArray α)
    {q : ℚ} (method : QuantileMethod) (h0 : 0 ≤ q) (h1 : q ≤ 1) :
    (ChunkedArray.quantile toF ca (.fin q) method = .ok none ↔
      ca.null_count = ca.len)
    ∧ (ca.null_count < ca.len →
        ∃ v, ChunkedArray.quantile toF ca (.fin q) method = .ok (some v)) := by
  have hle : ca.null_count ≤ ca.len := List.countP_le_length _
  have hsome : ca.null_count < ca.len →
      ∃ v, ChunkedArray.quantile toF ca (.fin q) method = .ok (some v) := by
    intro hlt
    unfold ChunkedArray.quantile
    split
    · rename_i slice hcs _
      obtain ⟨hsv, hz0⟩ := cont_slice_eq hcs
      have hvlen : slice.length = ca.len := by
        subst hsv
        have := values_length_add_null_count ca
        omega
      have hne : slice ≠ [] := by
        intro h
        rw [h] at hvlen
        simp at hvlen
        omega
      exact quantile_slice_ok_some toF method h0 h1 hne
    · exact generic_quantile_ok_some toF method h0 h1 hlt
  have hnone : ca.null_count = ca.len →
      ChunkedArray.quantile toF ca (.fin q) method = .ok none := by
    intro hz
    unfold ChunkedArray.quantile
    split
    · rename_i slice hcs _
      obtain ⟨hsv, hz0⟩ := cont_slice_eq hcs
      have hvlen : slice.length = ca.len := by
        subst hsv
        have := values_length_add_null_count ca
        omega
      have he : slice = [] := by
        apply List.length_eq_zero.mp
        omega
      rw [he]
      exact quantile_slice_empty toF method h0 h1
    · exact generic_quantile_all_null toF ca method h0 h1 hz
  refine ⟨⟨fun hres => ?_, hnone⟩, hsome⟩
  by_contra hz
  obtain ⟨v, hv⟩ := hsome (by omega)
  rw [hres] at hv
  cases hv

/-- Witness for C7 on an array with one null among two values. -/
theorem quantile_none_iff_all_null_witness :
    (ChunkedArray.quantile (id : ℚ → ℚ)
        (ChunkedArray.mk [none, some 2, some 1] false false) (.fin (mkRat 1 2)) .Linear
          = .ok none
      ↔ (ChunkedArray.mk ([none, some 2, some 1] : List (Option ℚ)) false false).null_count
          = (ChunkedArray.mk ([none, some 2, some 1] : List (Option ℚ)) false false).len)
    ∧ ((ChunkedArray.mk ([none, some 2, some 1] : List (Option ℚ)) false false).null_count
          < (ChunkedArray.mk ([none, some 2, some 1] : List (Option ℚ)) false false).len →
        ∃ v, ChunkedArray.quantile (id : ℚ → ℚ)
          (ChunkedArray.mk [none, some 2, some 1] false false) (.fin (mkRat 1 2)) .Linear
            = .ok (some v)) :=
  quantile_none_iff_all_null (id : ℚ → ℚ)
    (ChunkedArray.mk [none, some 2, some 1] false false) .Linear
    (by decide) (by decide)

/-- On a null-free array the dispatcher agrees with `quantile_slice`
whichever branch it takes. -/
theorem quantile_null_free_eq_slice (toF : α → ℚ) (vals : List α) (c f : Bool)
    {q : ℚ} (method : QuantileMethod) (h0 : 0 ≤ q) (h1 : q ≤ 1) :
    ChunkedArray.quantile toF (ChunkedArray.mk (vals.map some) c f) (.fin q) method
      = quantile_slice toF vals (.fin q) method := by
  unfold ChunkedArray.quantile
  split
  · rename_i slice hcs _
    obtain ⟨hsv, -⟩ := cont_slice_eq hcs
    rw [hsv]
    rw [values_map_some]
  · exact (fast_slow_aux toF vals method c f h0 h1).symm

/-- C1: on any null-free sequence (stored with any flag configuration) and
any valid `q`, the quickselect fast path and the sort-based slow path
return identical `Ok` payloads — the same `Option` value, built by the same
interpolation arithmetic, hence bit-identical once both are run over the
`f64` total order (the element type here is an arbitrary linear order, so
NaN, which `TotalOrd` orders above all numbers, is covered as just another
point of the order). -/
theorem quantile_fast_slow_bitidentical (toF : α → ℚ) (vals : List α)
    {q : ℚ} (method : QuantileMethod) (c f : Bool) (h0 : 0 ≤ q) (h1 : q ≤ 1) :
    quantile_slice toF vals (.fin q) method =
      generic_quantile toF (ChunkedArray.mk (vals.map some) c f) (.fin q) method :=
  fast_slow_aux toF vals method c f h0 h1

/-- Witness for C1 at a concrete unsorted input. -/
theorem quantile_fast_slow_bitidentical_witness :
    (0 : ℚ) ≤ mkRat 1 2 ∧ (mkRat 1 2 : ℚ) ≤ 1 ∧
    quantile_slice (id : ℚ → ℚ) [3, 1, 2] (.fin (mkRat 1 2)) .Linear =
      generic_quantile (id : ℚ → ℚ)
        (ChunkedArray.mk ([3, 1, 2].map some) true false) (.fin (mkRat 1 2)) .Linear :=
  ⟨by decide, by decide,
    quantile_fast_slow_bitidentical (id : ℚ → ℚ) [3, 1, 2] .Linear true false
      (by decide) (by decide)⟩

/-- C8: a single-element non-null sequence yields that element (converted
by `to_f64`) for every valid `q` and every method, on whichever path the
dispatcher takes. -/
theorem quantile_singleton (toF : α → ℚ) (v : α) (c f : Bool) {q : ℚ}
    (method : QuantileMethod) (h0 : 0 ≤ q) (h1 : q ≤ 1) :
    ChunkedArray.quantile toF (ChunkedArray.mk [some v] c f) (.fin q) method
      = .ok (some (toF v)) := by
  have h : ChunkedArray.mk [some v] c f = ChunkedArray.mk ([v].map some) c f := rfl
  rw [h, quantile_null_free_eq_slice toF [v] c f method h0 h1]
  exact quantile_slice_one toF v method h0 h1

/-- Witness for C8. -/
theorem quantile_singleton_witness :
    (0 : ℚ) ≤ mkRat 3 4 ∧ (mkRat 3 4 : ℚ) ≤ 1 ∧
    ChunkedArray.quantile (id : ℚ → ℚ) (ChunkedArray.mk [some 7] true true)
      (.fin (mkRat 3 4)) .Nearest = .ok (some 7) :=
  ⟨by decide, by decide,
    quantile_singleton (id : ℚ → ℚ) 7 true true .Nearest (by decide) (by decide)⟩

/-! ### The endpoints of the quantile range -/

theorem floor_half : ⌊(1 / 2 : ℚ)⌋ = 0 := by decide

theorem quantile_idx_q0 (n : ℕ) (method : QuantileMethod) :
    (quantile_idx 0 n 0 method).1 = 0 ∧ (quantile_idx 0 n 0 method).2.2 = 0 := by
  have hf : floatIdx 0 n 0 = 0 := by simp [floatIdx]
  cases method with
  | Nearest =>
      rw [quantile_idx_Nearest, hf]
      have : rustRound 0 = 0 := by
        unfold rustRound
        rw [if_pos le_rfl]
        norm_num [floor_half]
      simp [this]
  | Lower =>
      rw [quantile_idx_Lower, hf]
      simp [rustF64ToUsize]
  | Midpoint =>
      rw [quantile_idx_Midpoint, hf]
      simp [rustF64ToUsize]
  | Linear =>
      rw [quantile_idx_Linear, hf]
      simp [rustF64ToUsize]
  | Higher =>
      rw [quantile_idx_Higher, hf]
      simp
  | Equiprobable =>
      rw [quantile_idx_Equiprobable]
      simp [rustF64ToUsize]

theorem quantile_idx_q1 (n : ℕ) (hn : 1 ≤ n) (method : QuantileMethod) :
    (quantile_idx 1 n 0 method).1 = n - 1 ∧ (quantile_idx 1 n 0 method).2.2 = n - 1 := by
  have hf : floatIdx 1 n 0 = (((n : ℤ) - 1 : ℤ) : ℚ) := by
    simp [floatIdx]
  have hfl : ⌊floatIdx 1 n 0⌋ = (n : ℤ) - 1 := by rw [hf, Int.floor_intCast]
  have hcl : ⌈floatIdx 1 n 0⌉ = (n : ℤ) - 1 := by rw [hf, Int.ceil_intCast]
  cases method with
  | Nearest =>
      rw [quantile_idx_Nearest]
      have hr : rustRound (floatIdx 1 n 0) = (n : ℤ) - 1 := by
        unfold rustRound
        rw [hf, if_pos (Int.cast_nonneg.mpr (by omega)), Int.floor_int_add, floor_half]
        omega
      simp [hr]
  | Lower =>
      rw [quantile_idx_Lower]
      simp [rustF64ToUsize, hfl, hcl]
  | Midpoint =>
      rw [quantile_idx_Midpoint]
      simp [rustF64ToUsize, hfl, hcl]
  | Linear =>
      rw [quantile_idx_Linear]
      simp [rustF64ToUsize, hfl, hcl]
  | Higher =>
      rw [quantile_idx_Higher]
      simp [hcl]
  | Equiprobable =>
      have hX : rustF64ToUsize (max (((⌈(((n - 0 : ℕ)) : ℚ) * 1⌉ : ℤ) : ℚ) - 1) 0) = n - 1 := by
        have hc : ⌈(((n - 0 : ℕ)) : ℚ) * 1⌉ = (n : ℤ) := by simp
        rw [hc]
        have h2 : (((n : ℤ) : ℚ)) - 1 = (((n : ℤ) - 1 : ℤ) : ℚ) := by push_cast; ring
        rw [h2]
        rw [show max ((((n : ℤ) - 1 : ℤ) : ℚ)) 0 = ((max ((n : ℤ) - 1) 0 : ℤ) : ℚ) from by
          push_cast; rfl]
        rw [rustF64ToUsize, Int.floor_intCast]
        omega
      rw [quantile_idx_Equiprobable, hX]
      exact ⟨rfl, rfl⟩

theorem sorted_min?_eq_head? {l : List α} (hs : l.Sorted (· ≤ ·)) :
    l.min? = l.head? := by
  cases l with
  | nil => rfl
  | cons x t =>
      rw [List.min?_cons', List.head?_cons]
      obtain ⟨hall, -⟩ := List.sorted_cons.mp hs
      rw [foldl_min_eq t x hall]

theorem foldl_max_sorted : ∀ (t : List α) (x : α), (x :: t).Sorted (· ≤ ·) →
    t.foldl max x = (x :: t).getLast (List.cons_ne_nil x t) := by
  intro t
  induction t with
  | nil => intro x _; rfl
  | cons y t ih =>
      intro x hs
      obtain ⟨hall, hs'⟩ := List.sorted_cons.mp hs
      have hxy : max x y = y := max_eq_right (hall y (List.mem_cons_self y t))
      have : (x :: y :: t).getLast (List.cons_ne_nil x (y :: t))
          = (y :: t).getLast (List.cons_ne_nil y t) :=
        List.getLast_cons (List.cons_ne_nil y t)
      rw [this, ← ih y hs']
      simp [hxy]

theorem sorted_max?_eq_getLast? {l : List α} (hs : l.Sorted (· ≤ ·)) :
    l.max? = l.getLast? := by
  cases l with
  | nil => rfl
  | cons x t =>
      rw [List.max?_cons', foldl_max_sorted t x hs,
        List.getLast?_eq_getLast (x :: t) (List.cons_ne_nil x t)]

/-- C9: on a non-empty null-free ascending-sorted sequence, `quantile` at
`q = 0` returns the minimum and at `q = 1` returns the maximum, for every
method and on whichever path the dispatcher takes. -/
theorem quantile_extremes_sorted (toF : α → ℚ) (vals : List α) (c f : Bool)
    (method : QuantileMethod) (hs : vals.Sorted (· ≤ ·)) (hne : vals ≠ []) :
    ChunkedArray.quantile toF (ChunkedArray.mk (vals.map some) c f)
        (.fin 0) method = .ok (vals.min?.map toF)
    ∧ ChunkedArray.quantile toF (ChunkedArray.mk (vals.map some) c f)
        (.fin 1) method = .ok (vals.max?.map toF) := by
  rw [quantile_null_free_eq_slice toF vals c f method le_rfl zero_le_one,
    quantile_null_free_eq_slice toF vals c f method zero_le_one le_rfl,
    sorted_min?_eq_head? hs, sorted_max?_eq_getLast? hs]
  by_cases hone : vals.length = 1
  · obtain ⟨v, rfl⟩ := List.length_eq_one.mp hone
    rw [quantile_slice_one toF v method le_rfl zero_le_one,
      quantile_slice_one toF v method zero_le_one le_rfl]
    exact ⟨rfl, rfl⟩
  · have h2 : 2 ≤ vals.length := by
      have hne0 : vals.length ≠ 0 := fun h => hne (List.length_eq_zero.mp h)
      omega
    have hsv : sortVals vals = vals := hs.insertionSort_eq
    constructor
    · rw [quantile_slice_core toF vals method le_rfl zero_le_one h2]
      obtain ⟨hi, ht⟩ := quantile_idx_q0 vals.length method
      rw [if_pos (by omega), hi, hsv, ← List.head?_eq_getElem?]
    · rw [quantile_slice_core toF vals method zero_le_one le_rfl h2]
      obtain ⟨hi, ht⟩ := quantile_idx_q1 vals.length (by omega) method
      rw [if_pos (by omega), hi, hsv, ← List.getLast?_eq_getElem?]

/-- Witness for C9. -/
theorem quantile_extremes_sorted_witness :
    ([1, 2, 5] : List ℚ).Sorted (· ≤ ·) ∧
    ChunkedArray.quantile (id : ℚ → ℚ) (ChunkedArray.mk ([1, 2, 5].map some) true false)
        (.fin 0) .Midpoint = .ok (([1, 2, 5] : List ℚ).min?.map id)
    ∧ ChunkedArray.quantile (id : ℚ → ℚ) (ChunkedArray.mk ([1, 2, 5].map some) true false)
        (.fin 1) .Midpoint = .ok (([1, 2, 5] : List ℚ).max?.map id) :=
  ⟨by decide,
    quantile_extremes_sorted (id : ℚ → ℚ) [1, 2, 5] true false .Midpoint
      (by decide) (by decide)⟩

/-! ### The index selector against the specification formulas -/

theorem floatIdx_cast {q : ℚ} {n z : ℕ} (hz : z ≤ n) :
    floatIdx q n z = ((n : ℚ) - (z : ℚ) - 1) * q + (z : ℚ) := by
  rw [floatIdx, Nat.cast_sub hz]

theorem floatIdx_nonneg_of_le {q : ℚ} {n z : ℕ} (h0 : 0 ≤ q) (h1 : q ≤ 1)
    (hn : 1 ≤ n) (hz : z ≤ n) : 0 ≤ floatIdx q n z := by
  rcases Nat.eq_zero_or_pos z with hz0 | hz1
  · subst hz0
    exact floatIdx_nonneg h0 (by omega)
  · have hm : (0 : ℚ) ≤ ((n - z : ℕ) : ℚ) := Nat.cast_nonneg _
    have hz1' : (1 : ℚ) ≤ (z : ℚ) := by exact_mod_cast hz1
    have : (-1 : ℚ) * q ≤ (((n - z : ℕ) : ℚ) - 1) * q :=
      mul_le_mul_of_nonneg_right (by linarith) h0
    unfold floatIdx
    nlinarith

/-- C3: for the floor-based methods (`Lower`, `Midpoint`, `Linear`) the
selector returns `base = ⌊float_idx⌋` clamped to `[0, n-1]`,
`top = ⌈float_idx⌉`, and the fractional component `float_idx` itself,
where `float_idx = (m-1)·q + z`, `m = n - z`; for `Higher` the base is the
clamped `⌈float_idx⌉` and the top is `⌈float_idx⌉`. -/
theorem quantile_idx_floor_methods_spec (q : ℚ) (n z : ℕ)
    (method : QuantileMethod) (h0 : 0 ≤ q) (h1 : q ≤ 1) (hn : 1 ≤ n) (hz : z ≤ n) :
    (method = .Lower ∨ method = .Midpoint ∨ method = .Linear →
      ((quantile_idx q n z method).1 : ℤ)
          = max 0 (min ⌊((n : ℚ) - (z : ℚ) - 1) * q + (z : ℚ)⌋ ((n : ℤ) - 1))
      ∧ (quantile_idx q n z method).2.1 = ((n : ℚ) - (z : ℚ) - 1) * q + (z : ℚ)
      ∧ ((quantile_idx q n z method).2.2 : ℤ)
          = ⌈((n : ℚ) - (z : ℚ) - 1) * q + (z : ℚ)⌉)
    ∧ (method = .Higher →
      ((quantile_idx q n z method).1 : ℤ)
          = max 0 (min ⌈((n : ℚ) - (z : ℚ) - 1) * q + (z : ℚ)⌉ ((n : ℤ) - 1))
      ∧ (quantile_idx q n z method).2.1 = ((n : ℚ) - (z : ℚ) - 1) * q + (z : ℚ)
      ∧ ((quantile_idx q n z method).2.2 : ℤ)
          = ⌈((n : ℚ) - (z : ℚ) - 1) * q + (z : ℚ)⌉) := by
  have hcast := floatIdx_cast (q := q) hz
  have hge := floatIdx_nonneg_of_le h0 h1 hn hz
  have hfl0 : 0 ≤ ⌊floatIdx q n z⌋ := Int.floor_nonneg.mpr hge
  have hcl0 : 0 ≤ ⌈floatIdx q n z⌉ := le_trans hfl0 (Int.floor_le_ceil _)
  constructor
  · rintro (rfl | rfl | rfl) <;>
    · rw [← hcast]
      refine ⟨?_, rfl, ?_⟩ <;>
        first
        | (simp only [quantile_idx_Lower, quantile_idx_Midpoint, quantile_idx_Linear,
            rustF64ToUsize]
           push_cast
           omega)
  · rintro rfl
    rw [← hcast]
    refine ⟨?_, rfl, ?_⟩ <;>
      first
      | (simp only [quantile_idx_Higher]
         push_cast
         omega)

/-- Witness for C3. -/
theorem quantile_idx_floor_methods_spec_witness :
    ((quantile_idx (mkRat 1 4) 4 1 .Linear).1 : ℤ)
        = max 0 (min ⌊((4 : ℚ) - (1 : ℚ) - 1) * mkRat 1 4 + (1 : ℚ)⌋ ((4 : ℤ) - 1))
    ∧ (quantile_idx (mkRat 1 4) 4 1 .Linear).2.1
        = ((4 : ℚ) - (1 : ℚ) - 1) * mkRat 1 4 + (1 : ℚ)
    ∧ ((quantile_idx (mkRat 1 4) 4 1 .Linear).2.2 : ℤ)
        = ⌈((4 : ℚ) - (1 : ℚ) - 1) * mkRat 1 4 + (1 : ℚ)⌉ := by
  have h := (quantile_idx_floor_methods_spec (mkRat 1 4) 4 1 .Linear
    (by decide) (by decide) (by decide) (by decide)).1 (Or.inr (Or.inr rfl))
  exact_mod_cast h

/-- For the four non-interpolating methods `quantile_slice` always returns
the order statistic at the base index: when `base = top` through the main
branch, and otherwise (possible for `Lower`) through the defensive default
arm of the interpolation match. -/
theorem quantile_slice_no_interp (toF : α → ℚ) (vals : List α) {q : ℚ}
    (method : QuantileMethod) (h0 : 0 ≤ q) (h1 : q ≤ 1)
    (hm : method = .Nearest ∨ method = .Equiprobable ∨ method = .Lower
      ∨ method = .Higher) :
    quantile_slice toF vals (.fin q) method
      = .ok (((sortVals vals)[(quantile_idx q vals.length 0 method).1]?).map toF) := by
  by_cases he : vals = []
  · subst he
    rw [quantile_slice_empty toF method h0 h1]
    rfl
  by_cases hone : vals.length = 1
  · obtain ⟨v, rfl⟩ := List.length_eq_one.mp hone
    rw [quantile_slice_one toF v method h0 h1]
    have hi := idx_lt (q := q) (n := 1) (z := 0) method h0 h1 Nat.zero_lt_one
    have hi0 : (quantile_idx q 1 0 method).1 = 0 := by omega
    rw [sortVals_singleton]
    simp [hi0]
  · have h2 : 2 ≤ vals.length := by
      have hne0 : vals.length ≠ 0 := fun h => he (List.length_eq_zero.mp h)
      omega
    rw [quantile_slice_core toF vals method h0 h1 h2]
    by_cases hbt : (quantile_idx q vals.length 0 method).1
        = (quantile_idx q vals.length 0 method).2.2
    · rw [if_pos hbt]
    · rw [if_neg hbt]
      rcases hm with rfl | rfl | rfl | rfl <;> rfl

/-- C4: for `Nearest` the selector returns `base = top = round(float_idx)`
(round half away from zero, which on the nonnegative `float_idx` agrees
with mathematical rounding), for `Equiprobable` it returns
`base = top = max(0, ⌈m·q⌉ - 1) + z`, and consequently the selection
engine never interpolates for these two methods: it returns exactly the
value at that single position. -/
theorem quantile_idx_nearest_equiprobable_spec (q : ℚ) (n z : ℕ)
    (h0 : 0 ≤ q) (h1 : q ≤ 1) (hn : 1 ≤ n) (hz : z ≤ n) :
    ((quantile_idx q n z .Nearest).1 : ℤ)
        = round (((n : ℚ) - (z : ℚ) - 1) * q + (z : ℚ))
    ∧ (quantile_idx q n z .Nearest).2.2 = (quantile_idx q n z .Nearest).1
    ∧ ((quantile_idx q n z .Equiprobable).1 : ℤ)
        = max 0 (⌈((n : ℚ) - (z : ℚ)) * q⌉ - 1) + (z : ℤ)
    ∧ (quantile_idx q n z .Equiprobable).2.2 = (quantile_idx q n z .Equiprobable).1
    ∧ (∀ (vals : List ℚ) (m : QuantileMethod),
        m = .Nearest ∨ m = .Equiprobable →
        quantile_slice (id : ℚ → ℚ) vals (.fin q) m
          = .ok (((sortVals vals)[(quantile_idx q vals.length 0 m).1]?).map (id : ℚ → ℚ))) := by
  have hcast := floatIdx_cast (q := q) hz
  have hge := floatIdx_nonneg_of_le h0 h1 hn hz
  refine ⟨?_, rfl, ?_, rfl, ?_⟩
  · rw [quantile_idx_Nearest, ← hcast]
    have hr : rustRound (floatIdx q n z) = ⌊floatIdx q n z + 1/2⌋ := by
      unfold rustRound
      rw [if_pos hge]
    have hr0 : 0 ≤ rustRound (floatIdx q n z) := by
      rw [hr]
      have : (0 : ℚ) ≤ floatIdx q n z + 1/2 := by linarith
      exact Int.floor_nonneg.mpr this
    rw [round_eq, ← hr]
    omega
  · rw [quantile_idx_Equiprobable]
    have hc : ((n : ℚ) - (z : ℚ)) = ((n - z : ℕ) : ℚ) := (Nat.cast_sub hz).symm
    rw [hc]
    rw [show max (((⌈(((n - z : ℕ)) : ℚ) * q⌉ : ℤ) : ℚ) - 1) 0
        = ((max (⌈(((n - z : ℕ)) : ℚ) * q⌉ - 1) 0 : ℤ) : ℚ) from by push_cast; rfl]
    rw [rustF64ToUsize, Int.floor_intCast]
    push_cast
    omega
  · intro vals m hm
    exact quantile_slice_no_interp (id : ℚ → ℚ) vals m h0 h1
      (by rcases hm with rfl | rfl
          · exact Or.inl rfl
          · exact Or.inr (Or.inl rfl))

/-- Witness for C4. -/
theorem quantile_idx_nearest_equiprobable_spec_witness :
    ((quantile_idx (mkRat 1 2) 4 0 .Nearest).1 : ℤ)
        = round (((4 : ℚ) - (0 : ℚ) - 1) * mkRat 1 2 + (0 : ℚ))
    ∧ (quantile_idx (mkRat 1 2) 4 0 .Nearest).2.2 = (quantile_idx (mkRat 1 2) 4 0 .Nearest).1
    ∧ ((quantile_idx (mkRat 1 2) 4 0 .Equiprobable).1 : ℤ)
        = max 0 (⌈((4 : ℚ) - (0 : ℚ)) * mkRat 1 2⌉ - 1) + ((0 : ℕ) : ℤ)
    ∧ (quantile_idx (mkRat 1 2) 4 0 .Equiprobable).2.2
        = (quantile_idx (mkRat 1 2) 4 0 .Equiprobable).1
    ∧ (∀ (vals : List ℚ) (m : QuantileMethod),
        m = .Nearest ∨ m = .Equiprobable →
        quantile_slice (id : ℚ → ℚ) vals (.fin (mkRat 1 2)) m
          = .ok (((sortVals vals)[(quantile_idx (mkRat 1 2) vals.length 0 m).1]?).map
            (id : ℚ → ℚ))) :=
  quantile_idx_nearest_equiprobable_spec (mkRat 1 2) 4 0
    (by decide) (by decide) (by decide) (by decide)

/-- C5 counterexample: for `Lower` at `q = 1/4`, `n = 4`, `z = 0` the
selector returns `base = 0` but `top = 1`, so `base = top` fails for
`Lower` and the `idx != top_idx` branch of the engine is reachable. -/
theorem quantile_idx_lower_base_ne_top_cex :
    (quantile_idx (mkRat 1 4) 4 0 .Lower).1 = 0
    ∧ (quantile_idx (mkRat 1 4) 4 0 .Lower).2.2 = 1 := by
  decide

/-- C5 amended: for `Higher`, `Nearest` and `Equiprobable` the selector
always returns `base = top`, so those methods never reach the
interpolation branch; `Lower` can reach it (base < top when `float_idx`
is fractional) but the branch's defensive default arm still returns the
base value, so only `Linear` and `Midpoint` ever compute an
interpolation. -/
theorem quantile_idx_base_eq_top_amended (q : ℚ) (n z : ℕ)
    (method : QuantileMethod) (h0 : 0 ≤ q) (h1 : q ≤ 1) (hzn : z < n) :
    ((method = .Higher ∨ method = .Nearest ∨ method = .Equiprobable) →
      (quantile_idx q n z method).1 = (quantile_idx q n z method).2.2)
    ∧ (∀ vals : List ℚ,
        quantile_slice (id : ℚ → ℚ) vals (.fin q) .Lower
          = .ok (((sortVals vals)[(quantile_idx q vals.length 0 .Lower).1]?).map
            (id : ℚ → ℚ))) := by
  constructor
  · rintro (rfl | rfl | rfl)
    · have hcl := ceil_floatIdx_le h0 h1 hzn
      have hcg := ceil_floatIdx_ge h0 hzn
      simp only [quantile_idx_Higher]
      omega
    · rfl
    · rfl
  · intro vals
    exact quantile_slice_no_interp (id : ℚ → ℚ) vals .Lower h0 h1
      (Or.inr (Or.inr (Or.inl rfl)))

/-- Witness for the amended C5. -/
theorem quantile_idx_base_eq_top_amended_witness :
    ((QuantileMethod.Higher = QuantileMethod.Higher
        ∨ QuantileMethod.Higher = QuantileMethod.Nearest
        ∨ QuantileMethod.Higher = QuantileMethod.Equiprobable) →
      (quantile_idx (mkRat 1 4) 4 0 .Higher).1 = (quantile_idx (mkRat 1 4) 4 0 .Higher).2.2)
    ∧ (∀ vals : List ℚ,
        quantile_slice (id : ℚ → ℚ) vals (.fin (mkRat 1 4)) .Lower
          = .ok (((sortVals vals)[(quantile_idx (mkRat 1 4) vals.length 0 .Lower).1]?).map
            (id : ℚ → ℚ))) :=
  quantile_idx_base_eq_top_amended (mkRat 1 4) 4 0 .Higher
    (by decide) (by decide) (by decide)

/-- C6: for a valid `q` and a sequence with at least one non-null value,
both selected indices lie in `[z, n-1]`; on the nulls-first sorted view
the reads at `base` and (when `top ≠ base`) at `base + 1` therefore hit
non-null slots, so the `.unwrap()` calls of `generic_quantile` never
panic. -/
theorem quantile_idx_indices_null_range (q : ℚ) (n z : ℕ)
    (method : QuantileMethod) (h0 : 0 ≤ q) (h1 : q ≤ 1) (hzn : z < n) :
    z ≤ (quantile_idx q n z method).1
    ∧ (quantile_idx q n z method).1 ≤ n - 1
    ∧ z ≤ (quantile_idx q n z method).2.2
    ∧ (quantile_idx q n z method).2.2 ≤ n - 1
    ∧ (∀ ca : ChunkedArray ℚ, ca.null_count = z → ca.len = n →
        (getSorted ca.sort (quantile_idx q n z method).1).isSome = true
        ∧ ((quantile_idx q n z method).2.2 ≠ (quantile_idx q n z method).1 →
            (getSorted ca.sort ((quantile_idx q n z method).1 + 1)).isSome = true)) := by
  have hig := idx_ge (q := q) (n := n) (z := z) method h0 h1 hzn
  have hil := idx_lt (q := q) (n := n) (z := z) method h0 h1 hzn
  have htg := top_ge (q := q) (n := n) (z := z) method h0 h1 hzn
  have htl := top_lt (q := q) (n := n) (z := z) method h0 h1 hzn
  refine ⟨hig, by omega, htg, by omega, ?_⟩
  rintro ca rfl rfl
  constructor
  · exact getSorted_sort_isSome hig hil
  · intro hne
    have hstep := top_of_ne method h0 h1 hzn (Ne.symm hne)
    exact getSorted_sort_isSome (by omega) (by omega)

/-- Witness for C6. -/
theorem quantile_idx_indices_null_range_witness :
    1 ≤ (quantile_idx (mkRat 1 2) 3 1 .Linear).1
    ∧ (quantile_idx (mkRat 1 2) 3 1 .Linear).1 ≤ 3 - 1
    ∧ 1 ≤ (quantile_idx (mkRat 1 2) 3 1 .Linear).2.2
    ∧ (quantile_idx (mkRat 1 2) 3 1 .Linear).2.2 ≤ 3 - 1
    ∧ (∀ ca : ChunkedArray ℚ, ca.null_count = 1 → ca.len = 3 →
        (getSorted ca.sort (quantile_idx (mkRat 1 2) 3 1 .Linear).1).isSome = true
        ∧ ((quantile_idx (mkRat 1 2) 3 1 .Linear).2.2
              ≠ (quantile_idx (mkRat 1 2) 3 1 .Linear).1 →
            (getSorted ca.sort
              ((quantile_idx (mkRat 1 2) 3 1 .Linear).1 + 1)).isSome = true)) :=
  quantile_idx_indices_null_range (mkRat 1 2) 3 1 .Linear
    (by decide) (by decide) (by decide)

theorem base_eq_top_of_small {q : ℚ} (method : QuantileMethod) (h0 : 0 ≤ q)
    (hm : method = .Linear ∨ method = .Midpoint) {n : ℕ} (hn : n ≤ 1) :
    (quantile_idx q n 0 method).1 = (quantile_idx q n 0 method).2.2 := by
  rcases Nat.le_one_iff_eq_zero_or_eq_one.mp hn with rfl | rfl
  · have hf : floatIdx q 0 0 = -q := by
      unfold floatIdx
      push_cast
      ring
    have hcl : ⌈floatIdx q 0 0⌉ ≤ 0 := by
      rw [hf]
      exact Int.ceil_le.mpr (by push_cast; linarith)
    have hfl : ⌊floatIdx q 0 0⌋ ≤ 0 := le_trans (Int.floor_le_ceil _) hcl
    rcases hm with rfl | rfl <;>
      simp only [quantile_idx_Linear, quantile_idx_Midpoint, rustF64ToUsize] <;> omega
  · have hf : floatIdx q 1 0 = 0 := by
      unfold floatIdx
      push_cast
      ring
    have hcl : ⌈floatIdx q 1 0⌉ = 0 := by rw [hf]; exact Int.ceil_zero
    have hfl : ⌊floatIdx q 1 0⌋ = 0 := by rw [hf]; exact Int.floor_zero
    rcases hm with rfl | rfl <;>
      simp only [quantile_idx_Linear, quantile_idx_Midpoint, rustF64ToUsize] <;> omega

/-- C10: for `Linear` and `Midpoint`, whenever the selector returns
`base ≠ top`, the engine's result lies between the `base`-th and the
`top`-th order statistics (inclusive), and for `Midpoint` it is exactly
their arithmetic mean. -/
theorem interpolation_within_bounds (vals : List ℚ) {q : ℚ}
    (method : QuantileMethod) (h0 : 0 ≤ q) (h1 : q ≤ 1)
    (hm : method = .Linear ∨ method = .Midpoint)
    (hne : (quantile_idx q vals.length 0 method).1
      ≠ (quantile_idx q vals.length 0 method).2.2) :
    ∃ v, quantile_slice (id : ℚ → ℚ) vals (.fin q) method = .ok (some v)
      ∧ ((sortVals vals)[(quantile_idx q vals.length 0 method).1]?).getD 0 ≤ v
      ∧ v ≤ ((sortVals vals)[(quantile_idx q vals.length 0 method).2.2]?).getD 0
      ∧ (method = .Midpoint →
          v = (((sortVals vals)[(quantile_idx q vals.length 0 method).1]?).getD 0
            + ((sortVals vals)[(quantile_idx q vals.length 0 method).2.2]?).getD 0)
            / 2) := by
  have h2 : 2 ≤ vals.length := by
    by_contra hlt
    exact hne (base_eq_top_of_small method h0 hm (by omega))
  have hzn : 0 < vals.length := by omega
  have hstep := top_of_ne method h0 h1 hzn hne
  have htl := top_lt (q := q) (n := vals.length) (z := 0) method h0 h1 hzn
  have hslen : (sortVals vals).length = vals.length := length_sortVals vals
  have hi0 : (quantile_idx q vals.length 0 method).1 < (sortVals vals).length := by
    omega
  have hi1 : (quantile_idx q vals.length 0 method).1 + 1 < (sortVals vals).length := by
    omega
  have hl := List.getElem?_eq_getElem hi0
  have hu := List.getElem?_eq_getElem hi1
  have hlu : (sortVals vals)[(quantile_idx q vals.length 0 method).1]
      ≤ (sortVals vals)[(quantile_idx q vals.length 0 method).1 + 1] :=
    (List.pairwise_iff_getElem.mp (sorted_sortVals vals)) _ _ hi0 hi1 (by omega)
  have hmin : min_by ((sortVals vals).drop ((quantile_idx q vals.length 0 method).1 + 1))
      = (sortVals vals)[(quantile_idx q vals.length 0 method).1 + 1]? :=
    min_by_drop (sorted_sortVals vals) hi1
  rw [quantile_slice_core (id : ℚ → ℚ) vals method h0 h1 h2, if_neg hne, hstep]
  have hfnn : 0 ≤ floatIdx q vals.length 0 := floatIdx_nonneg h0 hzn
  have hfl0 : 0 ≤ ⌊floatIdx q vals.length 0⌋ := Int.floor_nonneg.mpr hfnn
  rcases hm with rfl | rfl
  · -- Linear
    have hbase := idx_eq_floor (q := q) (n := vals.length) (z := 0)
      (Or.inr (Or.inr rfl)) h0 h1 hzn
    have hfrac : (quantile_idx q vals.length 0 .Linear).2.1
        = floatIdx q vals.length 0 := by
      rw [quantile_idx_Linear]
    have hcast : ((quantile_idx q vals.length 0 .Linear).1 : ℚ)
        = ((⌊floatIdx q vals.length 0⌋ : ℤ) : ℚ) := by
      rw [hbase]
      exact_mod_cast congrArg (fun z : ℤ => (z : ℚ)) (Int.toNat_of_nonneg hfl0)
    have hp0 : 0 ≤ (quantile_idx q vals.length 0 .Linear).2.1
        - ((quantile_idx q vals.length 0 .Linear).1 : ℚ) := by
      rw [hfrac, hcast]
      have := Int.floor_le (floatIdx q vals.length 0)
      linarith
    have hp1 : (quantile_idx q vals.length 0 .Linear).2.1
        - ((quantile_idx q vals.length 0 .Linear).1 : ℚ) ≤ 1 := by
      rw [hfrac, hcast]
      have := Int.lt_floor_add_one (floatIdx q vals.length 0)
      linarith
    simp only [hmin, hl, hu, Option.map_some', id_eq, Option.getD_some]
    refine ⟨_, rfl, ?_, ?_, fun hcm => absurd hcm (by decide)⟩
    · unfold linear_interpol
      split
      · exact le_rfl
      · nlinarith [mul_nonneg hp0 (sub_nonneg.mpr hlu)]
    · unfold linear_interpol
      split
      · rename_i heq
        exact le_of_eq heq
      · nlinarith [mul_nonneg (by linarith : (0:ℚ)
            ≤ 1 - ((quantile_idx q vals.length 0 .Linear).2.1
              - ((quantile_idx q vals.length 0 .Linear).1 : ℚ)))
          (sub_nonneg.mpr hlu)]
  · -- Midpoint
    simp only [hmin, hl, hu, Option.map_some', id_eq, Option.getD_some]
    refine ⟨_, rfl, ?_, ?_, fun _ => ?_⟩
    · unfold midpoint_interpol
      split
      · exact le_rfl
      · have h22 : (1 + 1 : ℚ) = 2 := by norm_num
        rw [h22]
        linarith
    · unfold midpoint_interpol
      split
      · rename_i heq
        exact le_of_eq heq
      · have h22 : (1 + 1 : ℚ) = 2 := by norm_num
        rw [h22]
        linarith
    · unfold midpoint_interpol
      split
      · rename_i heq
        rw [← heq]
        ring
      · have h22 : (1 + 1 : ℚ) = 2 := by norm_num
        rw [h22]

/-- Witness for C10 on the spec's own worked example
`[1,2,3,4]`, `Linear`, `q = 1/4`. -/
theorem interpolation_within_bounds_witness :
    ∃ v, quantile_slice (id : ℚ → ℚ) [1, 2, 3, 4] (.fin (mkRat 1 4)) .Linear
        = .ok (some v)
      ∧ ((sortVals [1, 2, 3, 4] :
          List ℚ)[(quantile_idx (mkRat 1 4) ([1, 2, 3, 4] : List ℚ).length 0 .Linear).1]?).getD 0
          ≤ v
      ∧ v ≤ ((sortVals [1, 2, 3, 4] :
          List ℚ)[(quantile_idx (mkRat 1 4) ([1, 2, 3, 4] : List ℚ).length 0 .Linear).2.2]?).getD 0
      ∧ (QuantileMethod.Linear = QuantileMethod.Midpoint →
          v = (((sortVals [1, 2, 3, 4] :
            List ℚ)[(quantile_idx (mkRat 1 4) ([1, 2, 3, 4] : List ℚ).length 0 .Linear).1]?).getD 0
            + ((sortVals [1, 2, 3, 4] :
            List ℚ)[(quantile_idx (mkRat 1 4) ([1, 2, 3, 4] : List ℚ).length 0 .Linear).2.2]?).getD 0)
            / 2) :=
  interpolation_within_bounds [1, 2, 3, 4] .Linear (by decide) (by decide)
    (Or.inl rfl) (by decide)

end PolarsQuantile
